import Mathlib

/-!
Verification development for the single-session research agent
(ReAct loop + conversation memory + tool router + web extraction pipeline).

Python strings are modelled as `List Char`; Python stateful classes are
modelled as explicit state passing.  Network effects (HTTP fetch, the model
backend, the Serper search backend) are modelled as explicit oracle values /
functions, since they are external collaborators of the core.
-/

set_option maxHeartbeats 1000000

namespace ResearchAgent

/-- Python strings, modelled at character level. -/
abbrev Str := List Char

/-! ## Character-level text utilities (tools/web_scraper.py `_clean_text` support)

`str.splitlines` splits on the Python line-boundary characters; `str.strip`
removes leading/trailing Python whitespace.  We model the line-boundary set
exactly and the whitespace set as the line boundaries plus the common
ASCII/latin-1 whitespace characters. -/

/-- Characters treated as line boundaries by the Python `str.splitlines` method. -/
def isLineBreakChar (c : Char) : Bool :=
  c = '\n' || c = '\r' || c = '\x0b' || c = '\x0c' ||
  c = '\x1c' || c = '\x1d' || c = '\x1e' || c = '\x85' ||
  c = '\u2028' || c = '\u2029'

/-- Characters removed by the Python `str.strip` method (whitespace). -/
def isPySpace (c : Char) : Bool :=
  c = ' ' || c = '\t' || c = '\xa0' || isLineBreakChar c

/-- The Python `str.strip` method: drop leading and trailing whitespace. -/
def pyStrip (l : Str) : Str :=
  ((l.dropWhile isPySpace).reverse.dropWhile isPySpace).reverse

/-- Worker for `pySplitlines`: `cur` is the line being accumulated. -/
def splitlinesAux : Str → Str → List Str
  | cur, [] => if cur.isEmpty then [] else [cur]
  | cur, '\r' :: '\n' :: rest => cur :: splitlinesAux [] rest
  | cur, c :: rest =>
    if isLineBreakChar c then cur :: splitlinesAux [] rest
    else splitlinesAux (cur ++ [c]) rest

/-- The Python `str.splitlines` method (keepends = False). -/
def pySplitlines (s : Str) : List Str := splitlinesAux [] s

/-- The Python `sep.join(parts)` idiom. -/
def joinSep (sep : Str) : List Str → Str
  | [] => []
  | [l] => l
  | l :: ls => l ++ sep ++ joinSep sep ls

/-- `"\n".join(parts)`, the join used by `_clean_text` and `get_text`. -/
def joinNL : List Str → Str := joinSep ['\n']

/-- `re.sub(r" {2,}", " ", text)`: collapse each run of 2+ spaces to one. -/
def collapseSpaces : Str → Str
  | [] => []
  | [c] => [c]
  | c :: d :: rest =>
    if c = ' ' && d = ' ' then collapseSpaces (d :: rest)
    else c :: collapseSpaces (d :: rest)

/-- The `for line in lines` loop of `_clean_text` that keeps at most two
consecutive blank lines (`blank_count` state threaded explicitly). -/
def blankCollapseAux : Nat → List Str → List Str
  | _, [] => []
  | blankCount, line :: rest =>
    if line.isEmpty then
      if blankCount + 1 ≤ 2 then line :: blankCollapseAux (blankCount + 1) rest
      else blankCollapseAux (blankCount + 1) rest
    else line :: blankCollapseAux 0 rest

/-- `WebScraper._clean_text`: strip each line, drop whitespace-only lines,
collapse blank-line runs, rejoin with newlines, collapse space runs, strip
the result. -/
def clean_text (text : Str) : Str :=
  pyStrip (collapseSpaces (joinNL (blankCollapseAux 0
    (((pySplitlines text).map pyStrip).filter (fun l => !l.isEmpty)))))

/-- `true` iff the string contains two adjacent spaces. -/
def hasDoubleSpace : Str → Bool
  | [] => false
  | [_] => false
  | c :: d :: rest => (c = ' ' && d = ' ') || hasDoubleSpace (d :: rest)

example : clean_text "  a\n\n b  c ".data = "a\nb c".data := by decide
example : clean_text "".data = "".data := by decide
example : clean_text " \n\t\n".data = [] := by decide
example : clean_text "x\x0by".data = "x\ny".data := by decide

/-! ## String search primitives (`in`, `startswith`, the two regexes) -/

/-- `l` starts with `pat` (Python `startswith`, also regex match-at-start). -/
def isPref : Str → Str → Bool
  | [], _ => true
  | _ :: _, [] => false
  | a :: p, b :: l => a = b && isPref p l

/-- Strip the prefix `pat` from `l`, if present. -/
def stripPref : Str → Str → Option Str
  | [], l => some l
  | _ :: _, [] => none
  | a :: p, b :: l => if a = b then stripPref p l else none

/-- Python `pat in l` (substring containment, also regex `search` of a literal). -/
def containsSub (pat : Str) : Str → Bool
  | [] => isPref pat []
  | l@(_ :: rest) => isPref pat l || containsSub pat rest

/-- Characters matched by `\s` in the scraper regexes (ASCII part). -/
def isReWs (c : Char) : Bool :=
  c = ' ' || c = '\t' || c = '\n' || c = '\r' || c = '\x0b' || c = '\x0c'

/-- Match of `display:\s*none|visibility:\s*hidden` anchored at the start of
`l`.  The source compiles this regex with no flags, so it is case-sensitive. -/
def hiddenHere (l : Str) : Bool :=
  (match stripPref "display:".data l with
   | some r => isPref "none".data (r.dropWhile isReWs)
   | none => false) ||
  (match stripPref "visibility:".data l with
   | some r => isPref "hidden".data (r.dropWhile isReWs)
   | none => false)

/-- `re.search(r"display:\s*none|visibility:\s*hidden", l)`: the pattern
matches at some position of `l`. -/
def styleHidden : Str → Bool
  | [] => false
  | l@(_ :: rest) => hiddenHere l || styleHidden rest

example : styleHidden "x;display:  none".data = true := by decide
example : styleHidden "visibility:hidden".data = true := by decide
example : styleHidden "DISPLAY:NONE".data = false := by decide
example : styleHidden "display: block".data = false := by decide

/-! ## HTML document model (tools/web_scraper.py)

`BeautifulSoup(response.text, "html.parser")` is an external parser; its
output tree is modelled directly as a forest of nodes.  A BeautifulSoup `Tag`
is always truthy (it defines a boolean conversion that holds even for a tag
with no contents), so in the `or`-chain, in `if not main_content` and in
`if title` only a `find` miss (`None`) is falsy: options model that. -/

inductive Node where
  | elem (tag : Str) (attrs : List (Str × Str)) (children : List Node)
  | text (s : Str)

/-- Attribute lookup on a tag (`tag["style"]`-style access used by `find_all`). -/
def getAttr : List (Str × Str) → Str → Option Str
  | [], _ => none
  | (k, v) :: rest, name => if k = name then some v else getAttr rest name

/-- The fixed noise category list `NOISE_TAGS` of the source. -/
def NOISE_TAGS : List Str :=
  (["script", "style", "nav", "footer", "header", "aside",
    "form", "iframe", "noscript", "advertisement"]).map String.data

/-- The node is an element carrying one of the noise tags. -/
def isNoiseElem : Node → Bool
  | Node.elem t _ _ => decide (t ∈ NOISE_TAGS)
  | Node.text _ => false

mutual
/-- Rebuild a kept node, stripping noise elements inside its children. -/
def removeNoiseN : Node → Node
  | Node.elem t a c => Node.elem t a (removeNoise c)
  | Node.text s => Node.text s

/-- `for tag in soup(NOISE_TAGS): tag.decompose()` — remove every element
whose tag is in the noise list, together with its whole subtree. -/
def removeNoise : List Node → List Node
  | [] => []
  | n :: rest =>
    if isNoiseElem n then removeNoise rest
    else removeNoiseN n :: removeNoise rest
end

/-- A tag matches `find_all(style=re.compile(...))`: it has a `style`
attribute and the (case-sensitive) hidden-style regex matches it. -/
def isHiddenStyled (attrs : List (Str × Str)) : Bool :=
  match getAttr attrs "style".data with
  | some v => styleHidden v
  | none => false

/-- The node is an element whose inline style matches the hidden regex. -/
def isHiddenNode : Node → Bool
  | Node.elem _ a _ => isHiddenStyled a
  | Node.text _ => false

mutual
/-- Rebuild a kept node, removing hidden elements inside its children. -/
def removeHiddenN : Node → Node
  | Node.elem t a c => Node.elem t a (removeHidden c)
  | Node.text s => Node.text s

/-- `for tag in soup.find_all(style=...): tag.decompose()` — remove every
element whose inline style matches the hidden-style regex. -/
def removeHidden : List Node → List Node
  | [] => []
  | n :: rest =>
    if isHiddenNode n then removeHidden rest
    else removeHiddenN n :: removeHidden rest
end

mutual
/-- `soup.find(...)` restricted to one node: the node itself, else its
descendants in pre-order. -/
def findElemN (p : Str → List (Str × Str) → Bool) : Node → Option Node
  | Node.text _ => none
  | Node.elem t a c =>
    if p t a then some (Node.elem t a c) else findElem p c

/-- `soup.find(...)`: depth-first pre-order search for the first element
(tags only) satisfying the predicate on tag name and attributes. -/
def findElem (p : Str → List (Str × Str) → Bool) : List Node → Option Node
  | [] => none
  | n :: rest =>
    match findElemN p n with
    | some r => some r
    | none => findElem p rest
end

/-- Python `x or y` on optional found tags: a found tag is always truthy,
so keep `x` whenever the find hit, else fall through to `y`. -/
def pyOr (a b : Option Node) : Option Node :=
  match a with
  | some n => some n
  | none => b

/-- Split an attribute value on whitespace (multi-valued `class` attribute). -/
def splitWsAux : Str → Str → List Str
  | cur, [] => if cur.isEmpty then [] else [cur]
  | cur, c :: rest =>
    if isPySpace c then
      if cur.isEmpty then splitWsAux [] rest else cur :: splitWsAux [] rest
    else splitWsAux (cur ++ [c]) rest

def splitWs (v : Str) : List Str := splitWsAux [] v

def toLowerStr (s : Str) : Str := s.map Char.toLower

/-- One class token matches `re.compile(r"article|content|post|story", re.I)`. -/
def classTokenMatches (tok : Str) : Bool :=
  containsSub "article".data (toLowerStr tok) ||
  containsSub "content".data (toLowerStr tok) ||
  containsSub "post".data (toLowerStr tok) ||
  containsSub "story".data (toLowerStr tok)

/-- `soup.find(class_=re.compile(r"article|content|post|story", re.I))`
matches a tag whose class attribute has a matching token. -/
def classMatches (attrs : List (Str × Str)) : Bool :=
  match getAttr attrs "class".data with
  | some v => (splitWs v).any classTokenMatches
  | none => false

/-- The `or`-chain choosing the main content block (source step 6). -/
def mainContent (soup : List Node) : Option Node :=
  pyOr (findElem (fun t _ => t = "article".data) soup)
    (pyOr (findElem (fun t _ => t = "main".data) soup)
      (pyOr (findElem (fun _ a => getAttr a "id".data = some "content".data) soup)
        (pyOr (findElem (fun _ a => classMatches a) soup)
          (findElem (fun t _ => t = "body".data) soup))))

mutual
/-- Descendant text segments of one node. -/
def textsOf : Node → List Str
  | Node.text s => [s]
  | Node.elem _ _ c => textsOfF c

/-- All descendant text segments of a forest, in document order. -/
def textsOfF : List Node → List Str
  | [] => []
  | n :: rest => textsOf n ++ textsOfF rest
end

/-- `tag.get_text(separator=sep)`: join descendant strings with `sep`. -/
def get_text (sep : Str) (n : Node) : Str := joinSep sep (textsOf n)

/-! ## The scrape pipeline (`WebScraper.scrape`) -/

def MAX_CHARS : Nat := 3000

def errInvalidUrl (url : Str) : Str :=
  "Error: Invalid URL \x27".data ++ url ++ "\x27. Must start with http:// or https://".data
def errTimeout : Str :=
  "Error: Page took too long to load (>10s). Try a different URL.".data
def errConnection (url : Str) : Str :=
  "Error: Could not connect to \x27".data ++ url ++
    "\x27. Check the URL or your internet connection.".data
def err403 (url : Str) : Str :=
  "Error: Access denied (403). \x27".data ++ url ++ "\x27 blocks automated requests.".data
def err404 (url : Str) : Str :=
  "Error: Page not found (404). \x27".data ++ url ++ "\x27 does not exist.".data
def errHTTP (url : Str) (status : Nat) : Str :=
  "Error: HTTP ".data ++ (Nat.repr status).data ++ " from \x27".data ++ url ++ "\x27.".data
def errRequest (url : Str) (msg : Str) : Str :=
  "Error fetching \x27".data ++ url ++ "\x27: ".data ++ msg
def errContentType (ct : Str) : Str :=
  "Error: Cannot scrape this file type (Content-Type: ".data ++ ct ++
    "). web_scraper only works on HTML pages.".data
def errNoContent : Str := "Error: Could not find readable content on this page.".data
def errNoText : Str := "Error: Page was found but contained no readable text.".data

/-- The literal truncation marker appended at the cutoff. -/
def truncMarker : Str := "\n\n[... truncated at 3000 chars ...]".data

/-- Source step 10: cut at `MAX_CHARS` and append the marker if too long. -/
def truncBody (text : Str) : Str :=
  if MAX_CHARS < text.length then text.take MAX_CHARS ++ truncMarker else text

/-- `title.get_text().strip() if title else "Unknown"` — a found `<title>`
tag is truthy even when empty, so "Unknown" appears only when absent. -/
def titleText (soup : List Node) : Str :=
  match findElem (fun t _ => t = "title".data) soup with
  | some t => pyStrip (get_text [] t)
  | none => "Unknown".data

/-- Source step 9: the metadata header (40 box-drawing dashes). -/
def headerOf (url : Str) (soup : List Node) : Str :=
  "SOURCE: ".data ++ url ++ "\nTITLE:  ".data ++ titleText soup ++
    ['\n'] ++ List.replicate 40 '─' ++ ['\n']

/-- Source steps 5: noise-tag removal then hidden-style removal. -/
def stripNoise (doc : List Node) : List Node := removeHidden (removeNoise doc)

/-- Source steps 4-10 of `scrape`, applied to the parsed document.
`if not main_content` fires only when every find missed (`None`). -/
def scrapeHTML (url : Str) (doc : List Node) : Str :=
  let soup := stripNoise doc
  match mainContent soup with
  | none => errNoContent
  | some n =>
    let text := clean_text (get_text ['\n'] n)
    if text.isEmpty then errNoText
    else headerOf url soup ++ truncBody text

/-- Outcome of the `requests.get` call, as seen by `scrape`: each except
branch of the source, or a response with its Content-Type and parsed body. -/
inductive FetchOutcome where
  | timeout
  | connectionError
  | httpError (status : Nat)
  | requestError (msg : Str)
  | success (contentType : Str) (doc : List Node)

/-- `WebScraper.scrape`: validate the scheme, branch on the fetch outcome,
type-check, then run the HTML pipeline.  Total by construction: every
branch returns a string. -/
def scrape (url : Str) (fetch : FetchOutcome) : Str :=
  if !(isPref "http://".data url || isPref "https://".data url) then errInvalidUrl url
  else match fetch with
    | .timeout => errTimeout
    | .connectionError => errConnection url
    | .httpError status =>
      if status = 403 then err403 url
      else if status = 404 then err404 url
      else errHTTP url status
    | .requestError msg => errRequest url msg
    | .success ct doc =>
      if !containsSub "text/html".data ct then errContentType ct
      else scrapeHTML url doc

/-! ## Web search (tools/web_search.py) -/

/-- One entry of the `organic` array (absent JSON fields default to `""`). -/
structure SearchEntry where
  title : Str
  link : Str
  snippet : Str

/-- `answerBox` object; a missing `answer` field defaults to `""`. -/
structure AnswerBox where
  answer : Str

/-- The JSON returned by the Serper backend, restricted to the fields read. -/
structure SearchData where
  answerBox : Option AnswerBox
  organic : Option (List SearchEntry)

/-- The body posted to the search backend: `{"q": query, "num": num}`. -/
structure SerperRequest where
  q : Str
  num : Nat

/-- `WebSearch.web_search` builds exactly this request for the backend. -/
def webSearchRequest (query : Str) (numResults : Nat) : SerperRequest :=
  ⟨query, numResults⟩

def noResultsMsg : Str := "No results found.".data

/-- The f-string for one numbered result (`i` is the 0-based enumerate index). -/
def fmtEntry (i : Nat) (r : SearchEntry) : Str :=
  "Result ".data ++ (Nat.repr (i + 1)).data ++ ":\n  Title:   ".data ++ r.title ++
    "\n  Summary: ".data ++ r.snippet ++ "\n  URL:     ".data ++ r.link ++ "\n".data

/-- The `for i, result in enumerate(...)` loop of `search_and_format`:
append a formatted block only when both title and link are non-empty. -/
def formatEntriesLoop : Nat → List SearchEntry → List Str
  | _, [] => []
  | i, r :: rest =>
    if !r.title.isEmpty && !r.link.isEmpty then
      fmtEntry i r :: formatEntriesLoop (i + 1) rest
    else formatEntriesLoop (i + 1) rest

/-- The optional leading `DIRECT ANSWER:` line. -/
def answerLines (data : SearchData) : List Str :=
  match data.answerBox with
  | some box =>
    if !box.answer.isEmpty then ["DIRECT ANSWER: ".data ++ box.answer] else []
  | none => []

/-- `WebSearch.search_and_format`, given the backend JSON `data`. -/
def search_and_format (data : SearchData) (numResults : Nat) : Str :=
  let fr := answerLines data ++
    (match data.organic with
     | some l => formatEntriesLoop 0 (l.take numResults)
     | none => [])
  let out := joinNL fr
  if !out.isEmpty then out else noResultsMsg

/-! ## Tool registry (agent/tool_registry.py)

The search and scrape network effects are oracle parameters.  The per-name
counters only feed `print`/`summary` and are omitted. -/

/-- The arguments dict Claude passed for a tool call;
`tool_input.get(key, default)` is modelled by `Option.getD`. -/
structure ToolInput where
  query : Option Str
  numResults : Option Nat
  url : Option Str

/-- The Serper request that `ToolRegistry.execute` causes for a `web_search`
dispatch: defensive defaults, then straight into `search_and_format`. -/
def searchRequestOf (input : ToolInput) : SerperRequest :=
  webSearchRequest (input.query.getD []) (input.numResults.getD 5)

/-- `ToolRegistry.execute` (string-keyed dispatch over the two tools). -/
def tool_registry_execute (searchBackend : SerperRequest → SearchData)
    (fetchOracle : Str → FetchOutcome) (toolName : Str) (input : ToolInput) : Str :=
  if toolName = "web_search".data then
    search_and_format (searchBackend (searchRequestOf input)) (searchRequestOf input).num
  else if toolName = "web_scraper".data then
    scrape (input.url.getD []) (fetchOracle (input.url.getD []))
  else "Error: Unknown tool \x27".data ++ toolName ++ "\x27".data

/-! ## Conversation memory (memory/conversation.py) -/

inductive Role where
  | user
  | assistant
deriving DecidableEq

/-- One tool_result dict (`{"type": "tool_result", "tool_use_id": ..,
"content": ..}`); the constant `type` field is implicit in the constructor. -/
structure ToolResultMsg where
  toolUseId : Str
  content : Str

/-- A content block of a model response: a text block, or a tool_use block
with its opaque id, tool name and arguments. -/
inductive Block where
  | text (s : Str)
  | toolUse (id : Str) (name : Str) (input : ToolInput)

/-- The `content` field of one stored message: plain user text, the raw
assistant block list (stored verbatim), or a tool_results batch. -/
inductive MsgContent where
  | ofText (s : Str)
  | ofBlocks (bs : List Block)
  | ofResults (rs : List ToolResultMsg)

structure Message where
  role : Role
  content : MsgContent

/-- `ConversationMemory`: the message list and the completed-turn counter. -/
structure ConversationMemory where
  messages : List Message
  turnCount : Nat

def emptyMemory : ConversationMemory := ⟨[], 0⟩

/-- `add_user_message`. -/
def add_user_message (m : ConversationMemory) (text : Str) : ConversationMemory :=
  { m with messages := m.messages ++ [⟨.user, .ofText text⟩] }

/-- `add_assistant_message` (stores the block list verbatim, bumps turns). -/
def add_assistant_message (m : ConversationMemory) (content : List Block) :
    ConversationMemory :=
  ⟨m.messages ++ [⟨.assistant, .ofBlocks content⟩], m.turnCount + 1⟩

/-- `add_tool_results`: the whole batch as ONE user message. -/
def add_tool_results (m : ConversationMemory) (rs : List ToolResultMsg) :
    ConversationMemory :=
  { m with messages := m.messages ++ [⟨.user, .ofResults rs⟩] }

/-- `is_followup`. -/
def is_followup (m : ConversationMemory) : Bool := decide (m.turnCount > 0)

/-- `clear`. -/
def clearMemory (_ : ConversationMemory) : ConversationMemory := ⟨[], 0⟩

/-- An arbitrary operation on the memory (for quantifying over call
sequences). -/
inductive MemOp where
  | userMsg (s : Str)
  | assistantMsg (bs : List Block)
  | toolResultsMsg (rs : List ToolResultMsg)
  | clearOp

def applyOp (m : ConversationMemory) : MemOp → ConversationMemory
  | .userMsg s => add_user_message m s
  | .assistantMsg bs => add_assistant_message m bs
  | .toolResultsMsg rs => add_tool_results m rs
  | .clearOp => clearMemory m

def applyOps (m : ConversationMemory) (ops : List MemOp) : ConversationMemory :=
  ops.foldl applyOp m

/-! ## Transcript well-formedness predicates -/

def isToolResultsMsg (m : Message) : Bool :=
  match m.content with
  | .ofResults _ => true
  | _ => false

def isToolUseBlock (b : Block) : Bool :=
  match b with
  | .toolUse .. => true
  | _ => false

/-- The message is an assistant turn containing at least one tool_use block. -/
def hasToolUseBlock (m : Message) : Bool :=
  match m.content with
  | .ofBlocks bs => bs.any isToolUseBlock
  | _ => false

/-- Adjacency condition: roles alternate, and a tool-results message only
follows a message carrying at least one tool_use block. -/
def stepOk (prev m : Message) : Bool :=
  !(decide (m.role = prev.role)) && (!isToolResultsMsg m || hasToolUseBlock prev)

def chainOk : Message → List Message → Bool
  | _, [] => true
  | prev, m :: rest => stepOk prev m && chainOk m rest

def firstOk (m : Message) : Bool := (decide (m.role = .user)) && !isToolResultsMsg m

/-- The transcript invariant of the spec: turns strictly alternate starting
with a requester turn, and every observation batch directly follows a
responder turn containing an action request. -/
def goodTranscript : List Message → Bool
  | [] => true
  | m :: rest => firstOk m && chainOk m rest

/-! ## The ReAct loop (agent/agent_loop.py) -/

/-- `response.stop_reason`, as branched on by `run`. -/
inductive StopReason where
  | endTurn
  | toolUse
  | otherReason (s : Str)

/-- A model backend response: stop reason plus content blocks. -/
structure ModelResponse where
  stopReason : StopReason
  content : List Block

def MAX_ITERATIONS : Nat := 10

def FALLBACK_MESSAGE : Str :=
  ("I wasn\x27t able to find a reliable answer.\nPossible reasons:\n  • Topic is too recent or obscure\n  • Try rephrasing with more specific keywords\n  • Check that SERPER_API_KEY is valid").data

/-- `AgentLoop._extract_text`: newline-join the non-empty text blocks, strip. -/
def extract_text (content : List Block) : Str :=
  pyStrip (joinNL (content.filterMap (fun b =>
    match b with
    | .text s => if !s.isEmpty then some s else none
    | _ => none)))

/-- `AgentLoop._execute_tools`: run every tool_use block in order through the
router `g`, echoing each id into a tool_result. -/
def execute_tools (g : Str → ToolInput → Str) : List Block → List ToolResultMsg
  | [] => []
  | .text _ :: rest => execute_tools g rest
  | .toolUse id name input :: rest => ⟨id, g name input⟩ :: execute_tools g rest

/-- The result of one `run` call: the returned answer, the final memory, and
the number of model backend calls issued. -/
structure RunResult where
  answer : Str
  memory : ConversationMemory
  modelCalls : Nat

/-- The `for step in range(1, MAX_ITERATIONS + 1)` loop of `run`.  `oracle`
models `client.messages.create` (a function of the replayed transcript),
`g` models `registry.execute`. -/
def runSteps (oracle : List Message → ModelResponse) (g : Str → ToolInput → Str) :
    Nat → ConversationMemory → Nat → RunResult
  | 0, mem, calls => ⟨FALLBACK_MESSAGE, mem, calls⟩
  | fuel + 1, mem, calls =>
    let resp := oracle mem.messages
    match resp.stopReason with
    | .endTurn =>
      let answer := extract_text resp.content
      ⟨if answer.isEmpty then FALLBACK_MESSAGE else answer,
        add_assistant_message mem resp.content, calls + 1⟩
    | .toolUse =>
      let mem' := add_assistant_message mem resp.content
      let results := execute_tools g resp.content
      runSteps oracle g fuel (add_tool_results mem' results) (calls + 1)
    | .otherReason _ => ⟨FALLBACK_MESSAGE, mem, calls + 1⟩

/-- `AgentLoop.run`: append the question, then loop up to `MAX_ITERATIONS`
steps.  (The system-prompt choice made from `is_followup` does not influence
the transcript and is not tracked.) -/
def run (oracle : List Message → ModelResponse) (g : Str → ToolInput → Str)
    (mem : ConversationMemory) (question : Str) : RunResult :=
  runSteps oracle g MAX_ITERATIONS (add_user_message mem question) 0

/-! ## Lemmas about the whitespace pipeline -/

/-- No character of `l` is removed by `strip` at the front. -/
def headNotWs (l : Str) : Prop := ∀ c, l.head? = some c → isPySpace c = false

/-- No character of `l` is removed by `strip` at the back. -/
def lastNotWs (l : Str) : Prop := ∀ c, l.getLast? = some c → isPySpace c = false

theorem head?_dropWhile_not (p : Char → Bool) (l : Str) {c : Char}
    (h : (l.dropWhile p).head? = some c) : p c = false := by
  induction l with
  | nil => simp [List.dropWhile] at h
  | cons a t ih =>
    rw [List.dropWhile_cons] at h
    by_cases hp : p a
    · simp [hp] at h
      exact ih h
    · simp [hp] at h
      subst h
      simpa using hp

theorem dropWhile_eq_self_of_head (p : Char → Bool) (l : Str)
    (h : ∀ c, l.head? = some c → p c = false) : l.dropWhile p = l := by
  cases l with
  | nil => rfl
  | cons a t => simp [List.dropWhile_cons, h a rfl]

theorem pyStrip_eq_self (l : Str) (h1 : headNotWs l) (h2 : lastNotWs l) :
    pyStrip l = l := by
  unfold pyStrip
  rw [dropWhile_eq_self_of_head _ _ h1]
  rw [dropWhile_eq_self_of_head _ _ (fun c hc => h2 c (by rwa [List.head?_reverse] at hc))]
  exact List.reverse_reverse l

theorem headNotWs_pyStrip (l : Str) : headNotWs (pyStrip l) := by
  intro c hc
  unfold pyStrip at hc
  set y := l.dropWhile isPySpace with hy
  obtain ⟨t, ht⟩ :=
    (List.dropWhile_suffix isPySpace :
      List.IsSuffix (y.reverse.dropWhile isPySpace) y.reverse)
  have hyy : y = (y.reverse.dropWhile isPySpace).reverse ++ t.reverse := by
    have := congrArg List.reverse ht
    simpa [List.reverse_append] using this.symm
  have hhead : y.head? = some c := by
    rw [hyy, List.head?_append, hc]
    rfl
  exact head?_dropWhile_not isPySpace l hhead

theorem lastNotWs_pyStrip (l : Str) : lastNotWs (pyStrip l) := by
  intro c hc
  unfold pyStrip at hc
  rw [List.getLast?_reverse] at hc
  exact head?_dropWhile_not isPySpace _ hc

theorem pyStrip_idem (l : Str) : pyStrip (pyStrip l) = pyStrip l :=
  pyStrip_eq_self _ (headNotWs_pyStrip l) (lastNotWs_pyStrip l)

theorem pyStrip_sublist (l : Str) : List.Sublist (pyStrip l) l := by
  unfold pyStrip
  have h1 : List.Sublist ((l.dropWhile isPySpace).reverse.dropWhile isPySpace)
      (l.dropWhile isPySpace).reverse := List.dropWhile_sublist _
  have h2 := h1.reverse
  rw [List.reverse_reverse] at h2
  exact h2.trans (List.dropWhile_sublist _)

/-! ### collapseSpaces -/

theorem collapse_ne_nil (l : Str) (h : l ≠ []) : collapseSpaces l ≠ [] := by
  induction l using collapseSpaces.induct with
  | case1 => exact absurd rfl h
  | case2 c => simp [collapseSpaces]
  | case3 c d rest hcd ih => simpa [collapseSpaces, hcd] using ih (by simp)
  | case4 c d rest hcd ih => simp [collapseSpaces, hcd]

/-- Unfolding of `collapseSpaces` on a double space. -/
theorem collapse_eq_drop {c d : Char} {rest : Str} (h1 : c = ' ') (h2 : d = ' ') :
    collapseSpaces (c :: d :: rest) = collapseSpaces (d :: rest) := by
  simp [collapseSpaces, h1, h2]

/-- Unfolding of `collapseSpaces` when the first two characters are not both
spaces. -/
theorem collapse_eq_cons {c d : Char} {rest : Str} (h : ¬(c = ' ' ∧ d = ' ')) :
    collapseSpaces (c :: d :: rest) = c :: collapseSpaces (d :: rest) := by
  have hb : (c = ' ' && d = ' ') = false := by
    rcases not_and_or.mp h with h' | h' <;> simp [h']
  simp [collapseSpaces, hb]

theorem collapse_cons_not_space {c : Char} (h : c ≠ ' ') (l : Str) :
    collapseSpaces (c :: l) = c :: collapseSpaces l := by
  cases l with
  | nil => rfl
  | cons d r => exact collapse_eq_cons (fun hco => h hco.1)

theorem getLast?_collapse (l : Str) : (collapseSpaces l).getLast? = l.getLast? := by
  induction l using collapseSpaces.induct with
  | case1 => rfl
  | case2 c => rfl
  | case3 c d rest hcd ih =>
    simp only [Bool.and_eq_true, decide_eq_true_eq] at hcd
    rw [collapse_eq_drop hcd.1 hcd.2, ih, List.getLast?_cons_cons]
  | case4 c d rest hcd ih =>
    have hcd' : ¬(c = ' ' ∧ d = ' ') := by
      intro hco
      simp [hco.1, hco.2] at hcd
    rw [collapse_eq_cons hcd']
    have hne : collapseSpaces (d :: rest) ≠ [] := collapse_ne_nil _ (by simp)
    obtain ⟨x, xs, hcc⟩ : ∃ x xs, collapseSpaces (d :: rest) = x :: xs := by
      cases hcc : collapseSpaces (d :: rest) with
      | nil => exact absurd hcc hne
      | cons x xs => exact ⟨x, xs, rfl⟩
    rw [hcc, List.getLast?_cons_cons, ← hcc, ih, List.getLast?_cons_cons]

theorem head?_collapse_of (l : Str) (c : Char) (h : l.head? = some c) (hc : c ≠ ' ') :
    (collapseSpaces l).head? = some c := by
  cases l with
  | nil => simp at h
  | cons a t =>
    simp at h
    subst h
    cases t with
    | nil => simp [collapseSpaces]
    | cons d r => simp [collapseSpaces, hc]

theorem collapse_sublist (l : Str) : List.Sublist (collapseSpaces l) l := by
  induction l using collapseSpaces.induct with
  | case1 => simp [collapseSpaces]
  | case2 c => simp [collapseSpaces]
  | case3 c d rest hcd ih =>
    simp only [Bool.and_eq_true, decide_eq_true_eq] at hcd
    rw [collapse_eq_drop hcd.1 hcd.2]
    exact ih.trans (List.sublist_cons_self _ _)
  | case4 c d rest hcd ih =>
    have hcd' : ¬(c = ' ' ∧ d = ' ') := by
      intro hco
      simp [hco.1, hco.2] at hcd
    rw [collapse_eq_cons hcd']
    exact ih.cons₂ c

theorem hasDoubleSpace_collapse (l : Str) : hasDoubleSpace (collapseSpaces l) = false := by
  induction l using collapseSpaces.induct with
  | case1 => rfl
  | case2 c => rfl
  | case3 c d rest hcd ih =>
    simp only [Bool.and_eq_true, decide_eq_true_eq] at hcd
    rw [collapse_eq_drop hcd.1 hcd.2]
    exact ih
  | case4 c d rest hcd ih =>
    have hcd' : ¬(c = ' ' ∧ d = ' ') := by
      intro hco
      simp [hco.1, hco.2] at hcd
    rw [collapse_eq_cons hcd']
    have hne : collapseSpaces (d :: rest) ≠ [] := collapse_ne_nil _ (by simp)
    obtain ⟨x, xs, hcc⟩ : ∃ x xs, collapseSpaces (d :: rest) = x :: xs := by
      cases hcc : collapseSpaces (d :: rest) with
      | nil => exact absurd hcc hne
      | cons x xs => exact ⟨x, xs, rfl⟩
    rw [hcc]
    show ((c = ' ' && x = ' ') || hasDoubleSpace (x :: xs)) = false
    have hno : hasDoubleSpace (x :: xs) = false := by rw [← hcc]; exact ih
    rw [hno, Bool.or_false]
    by_cases hc : c = ' '
    · have hd : d ≠ ' ' := fun hd => hcd' ⟨hc, hd⟩
      have hhead := head?_collapse_of (d :: rest) d rfl hd
      rw [hcc] at hhead
      simp only [List.head?_cons, Option.some.injEq] at hhead
      have hx : x ≠ ' ' := by rw [hhead]; exact hd
      simp [hx]
    · simp [hc]

theorem collapse_eq_self_of_noDS (l : Str) (h : hasDoubleSpace l = false) :
    collapseSpaces l = l := by
  induction l with
  | nil => rfl
  | cons c t ih =>
    cases t with
    | nil => rfl
    | cons d r =>
      rw [show hasDoubleSpace (c :: d :: r) =
        ((c = ' ' && d = ' ') || hasDoubleSpace (d :: r)) from rfl] at h
      simp only [Bool.or_eq_false_iff] at h
      obtain ⟨h1, h2⟩ := h
      have hcd' : ¬(c = ' ' ∧ d = ' ') := by
        intro hco
        simp [hco.1, hco.2] at h1
      rw [collapse_eq_cons hcd', ih h2]

theorem collapse_append_break : ∀ a b : Str,
    collapseSpaces (a ++ '\n' :: b) = collapseSpaces a ++ '\n' :: collapseSpaces b := by
  intro a
  induction a with
  | nil =>
    intro b
    simp only [List.nil_append]
    rw [collapse_cons_not_space (by decide) b]
    rfl
  | cons c a ih =>
    intro b
    cases a with
    | nil =>
      simp only [List.cons_append, List.nil_append]
      by_cases hc : c = ' '
      · subst hc
        rw [collapse_eq_cons (by simp)]
        rw [collapse_cons_not_space (by decide) b]
        rfl
      · rw [collapse_cons_not_space hc ('\n' :: b)]
        rw [collapse_cons_not_space (by decide) b]
        rfl
    | cons d a' =>
      by_cases hcd : c = ' ' ∧ d = ' '
      · have hl : collapseSpaces (c :: d :: (a' ++ '\n' :: b)) =
            collapseSpaces (d :: (a' ++ '\n' :: b)) := collapse_eq_drop hcd.1 hcd.2
        have hr : collapseSpaces (c :: d :: a') = collapseSpaces (d :: a') :=
          collapse_eq_drop hcd.1 hcd.2
        calc collapseSpaces ((c :: d :: a') ++ '\n' :: b)
            = collapseSpaces ((d :: a') ++ '\n' :: b) := hl
          _ = collapseSpaces (d :: a') ++ '\n' :: collapseSpaces b := ih b
          _ = collapseSpaces (c :: d :: a') ++ '\n' :: collapseSpaces b := by rw [hr]
      · have hl : collapseSpaces (c :: d :: (a' ++ '\n' :: b)) =
            c :: collapseSpaces (d :: (a' ++ '\n' :: b)) := collapse_eq_cons hcd
        have hr : collapseSpaces (c :: d :: a') = c :: collapseSpaces (d :: a') :=
          collapse_eq_cons hcd
        calc collapseSpaces ((c :: d :: a') ++ '\n' :: b)
            = c :: collapseSpaces ((d :: a') ++ '\n' :: b) := hl
          _ = c :: (collapseSpaces (d :: a') ++ '\n' :: collapseSpaces b) := by rw [ih b]
          _ = collapseSpaces (c :: d :: a') ++ '\n' :: collapseSpaces b := by rw [hr]; rfl

theorem collapse_joinNL : ∀ M : List Str,
    collapseSpaces (joinNL M) = joinNL (M.map collapseSpaces) := by
  intro M
  induction M with
  | nil => rfl
  | cons m M ih =>
    cases M with
    | nil => rfl
    | cons m2 M2 =>
      show collapseSpaces (m ++ ['\n'] ++ joinSep ['\n'] (m2 :: M2)) = _
      rw [List.append_assoc]
      rw [show (['\n'] : Str) ++ joinSep ['\n'] (m2 :: M2) =
        '\n' :: joinSep ['\n'] (m2 :: M2) from rfl]
      rw [collapse_append_break]
      show _ = collapseSpaces m ++ ['\n'] ++ joinSep ['\n'] ((m2 :: M2).map collapseSpaces)
      rw [List.append_assoc]
      exact congrArg _ (congrArg _ ih)

/-! ### splitlines and join -/

theorem splitlinesAux_nil (cur : Str) :
    splitlinesAux cur [] = if cur.isEmpty then [] else [cur] := rfl

theorem splitlinesAux_cons_not_lb (cur t : Str) (c : Char)
    (h : isLineBreakChar c = false) :
    splitlinesAux cur (c :: t) = splitlinesAux (cur ++ [c]) t := by
  have hr : c ≠ '\r' := by
    intro he
    rw [he] at h
    simp [isLineBreakChar] at h
  rw [splitlinesAux.eq_def]
  split
  · next heq => exact absurd heq (by simp)
  · next rest heq =>
    rw [List.cons.injEq] at heq
    exact absurd heq.1 hr
  · next c' rest' hne heq =>
    rw [List.cons.injEq] at heq
    obtain ⟨hc, ht⟩ := heq
    subst hc
    subst ht
    simp [h]

theorem splitlinesAux_crlf (cur rest : Str) :
    splitlinesAux cur ('\r' :: '\n' :: rest) = cur :: splitlinesAux [] rest := by
  rw [splitlinesAux.eq_def]
  split
  · next heq => exact absurd heq (by simp)
  · next rest' heq =>
    rw [List.cons.injEq] at heq
    obtain ⟨-, heq⟩ := heq
    rw [List.cons.injEq] at heq
    obtain ⟨-, rfl⟩ := heq
    rfl
  · next c' rest' hne heq =>
    rw [List.cons.injEq] at heq
    obtain ⟨hc, ht⟩ := heq
    exact (hne rest hc.symm (by rw [← ht])).elim

theorem splitlinesAux_cons_lb' (cur t : Str) (c : Char)
    (h : isLineBreakChar c = true)
    (hr : ∀ r', c = '\r' → t = '\n' :: r' → False) :
    splitlinesAux cur (c :: t) = cur :: splitlinesAux [] t := by
  rw [splitlinesAux.eq_def]
  split
  · next heq => exact absurd heq (by simp)
  · next rest heq =>
    rw [List.cons.injEq] at heq
    exact (hr rest heq.1 heq.2).elim
  · next c' rest' hne heq =>
    rw [List.cons.injEq] at heq
    obtain ⟨hc, ht⟩ := heq
    subst hc
    subst ht
    simp [h]

theorem splitlinesAux_cons_lb (cur t : Str) (c : Char)
    (h : isLineBreakChar c = true) (hr : c ≠ '\r') :
    splitlinesAux cur (c :: t) = cur :: splitlinesAux [] t :=
  splitlinesAux_cons_lb' cur t c h (fun _ hc _ => hr hc)

/-- No element of the `splitlines` output contains a line-break character. -/
theorem splitlinesAux_mem_no_lb (cur s : Str)
    (hcur : ∀ c ∈ cur, isLineBreakChar c = false) :
    ∀ l ∈ splitlinesAux cur s, ∀ c ∈ l, isLineBreakChar c = false := by
  induction cur, s using splitlinesAux.induct with
  | case1 cur h =>
    intro l hl
    rw [splitlinesAux_nil, h] at hl
    simp at hl
  | case2 cur h =>
    intro l hl
    rw [splitlinesAux_nil, if_neg h] at hl
    rw [List.mem_singleton] at hl
    subst hl
    exact hcur
  | case3 cur rest ih =>
    intro l hl
    rw [splitlinesAux_crlf] at hl
    rcases List.mem_cons.mp hl with rfl | hl
    · exact hcur
    · exact ih (by simp) l hl
  | case4 cur c rest hne hlb ih =>
    intro l hl
    rw [splitlinesAux_cons_lb' cur rest c (by simpa using hlb) hne] at hl
    rcases List.mem_cons.mp hl with rfl | hl
    · exact hcur
    · exact ih (by simp) l hl
  | case5 cur c rest hne hnlb ih =>
    intro l hl
    rw [splitlinesAux_cons_not_lb cur rest c (by simpa using hnlb)] at hl
    refine ih ?_ l hl
    intro x hx
    rcases List.mem_append.mp hx with hx | hx
    · exact hcur x hx
    · rw [List.mem_singleton] at hx
      subst hx
      simpa using hnlb

/-- `splitlines` of a break-free string is that string as a single line. -/
theorem splitlinesAux_flat (s : Str) : ∀ cur, (∀ c ∈ s, isLineBreakChar c = false) →
    splitlinesAux cur s = if (cur ++ s).isEmpty then [] else [cur ++ s] := by
  induction s with
  | nil =>
    intro cur h
    rw [splitlinesAux_nil]
    simp
  | cons c t ih =>
    intro cur h
    have hc : isLineBreakChar c = false := h c (List.mem_cons_self c t)
    rw [splitlinesAux_cons_not_lb _ _ _ hc,
      ih _ (fun c' hc' => h c' (List.mem_cons_of_mem _ hc'))]
    simp

/-- Splitting across one explicit newline after a break-free line. -/
theorem splitlinesAux_append_line (l : Str)
    (h : ∀ c ∈ l, isLineBreakChar c = false) :
    ∀ cur rest, splitlinesAux cur (l ++ '\n' :: rest) = (cur ++ l) :: splitlinesAux [] rest := by
  induction l with
  | nil =>
    intro cur rest
    simpa using splitlinesAux_cons_lb cur rest '\n' (by decide) (by decide)
  | cons c t ih =>
    intro cur rest
    have hc : isLineBreakChar c = false := h c (List.mem_cons_self c t)
    rw [List.cons_append, splitlinesAux_cons_not_lb _ _ _ hc,
      ih (fun c' hc' => h c' (List.mem_cons_of_mem _ hc')) (cur ++ [c]) rest]
    simp

theorem joinNL_cons₂ (m m2 : Str) (M : List Str) :
    joinNL (m :: m2 :: M) = m ++ '\n' :: joinNL (m2 :: M) := by
  show m ++ ['\n'] ++ joinSep ['\n'] (m2 :: M) = m ++ '\n' :: joinSep ['\n'] (m2 :: M)
  rw [List.append_assoc]
  rfl

theorem joinNL_ne_nil (m : Str) (M : List Str) (hm : m ≠ []) : joinNL (m :: M) ≠ [] := by
  cases M with
  | nil => exact hm
  | cons m2 M2 =>
    rw [joinNL_cons₂]
    simp

theorem head?_joinNL (m : Str) (M : List Str) (hm : m ≠ []) :
    (joinNL (m :: M)).head? = m.head? := by
  cases M with
  | nil => rfl
  | cons m2 M2 =>
    rw [joinNL_cons₂, List.head?_append]
    obtain ⟨a, t, rfl⟩ := List.exists_cons_of_ne_nil hm
    rfl

theorem headNotWs_joinNL (M : List Str) (h : ∀ m ∈ M, m ≠ [] ∧ headNotWs m) :
    headNotWs (joinNL M) := by
  cases M with
  | nil => intro c hc; simp [joinNL, joinSep] at hc
  | cons m M2 =>
    obtain ⟨hm, hh⟩ := h m (List.mem_cons_self m M2)
    intro c hc
    rw [head?_joinNL m M2 hm] at hc
    exact hh c hc

theorem lastNotWs_joinNL (M : List Str) (h : ∀ m ∈ M, m ≠ [] ∧ lastNotWs m) :
    lastNotWs (joinNL M) := by
  induction M with
  | nil => intro c hc; simp [joinNL, joinSep] at hc
  | cons m M2 ih =>
    cases M2 with
    | nil => exact (h m (List.mem_cons_self m [])).2
    | cons m2 M3 =>
      intro c hc
      rw [joinNL_cons₂,
        List.getLast?_append_of_ne_nil m
          (show ('\n' :: joinNL (m2 :: M3)) ≠ [] by simp)] at hc
      have hne : joinNL (m2 :: M3) ≠ [] :=
        joinNL_ne_nil m2 M3 (h m2 (by simp)).1
      obtain ⟨a, t, heq⟩ := List.exists_cons_of_ne_nil hne
      rw [heq, List.getLast?_cons_cons] at hc
      refine ih (fun x hx => h x (List.mem_cons_of_mem _ hx)) c ?_
      rw [heq]
      exact hc

/-- The blank-collapsing loop is the identity once every blank line has been
filtered out (the branch counting blanks is unreachable). -/
theorem blankCollapseAux_id (L : List Str) (h : ∀ l ∈ L, l ≠ []) :
    ∀ n, blankCollapseAux n L = L := by
  induction L with
  | nil => intro n; rfl
  | cons l rest ih =>
    intro n
    have hl : l ≠ [] := h l (List.mem_cons_self l rest)
    obtain ⟨a, t, rfl⟩ := List.exists_cons_of_ne_nil hl
    show blankCollapseAux n ((a :: t) :: rest) = (a :: t) :: rest
    rw [show blankCollapseAux n ((a :: t) :: rest) =
      (a :: t) :: blankCollapseAux 0 rest from by simp [blankCollapseAux]]
    rw [ih (fun x hx => h x (List.mem_cons_of_mem _ hx)) 0]

/-- The stripped, non-blank lines that `_clean_text` builds before joining. -/
def cleanLines (s : Str) : List Str :=
  ((pySplitlines s).map pyStrip).filter (fun l => !l.isEmpty)

theorem cleanLines_facts (s : Str) : ∀ l ∈ cleanLines s,
    l ≠ [] ∧ pyStrip l = l ∧ ∀ c ∈ l, isLineBreakChar c = false := by
  intro l hl
  unfold cleanLines at hl
  rw [List.mem_filter] at hl
  obtain ⟨hmem, hne⟩ := hl
  rw [List.mem_map] at hmem
  obtain ⟨x, hx, rfl⟩ := hmem
  refine ⟨?_, pyStrip_idem x, ?_⟩
  · intro h0
    rw [h0] at hne
    simp at hne
  · intro c hc
    exact splitlinesAux_mem_no_lb [] s (by simp) x hx c ((pyStrip_sublist x).subset hc)

theorem headNotWs_collapse (l : Str) (h : headNotWs l) : headNotWs (collapseSpaces l) := by
  intro c hc
  cases l with
  | nil => simp [collapseSpaces] at hc
  | cons a t =>
    have ha : isPySpace a = false := h a rfl
    have ha' : a ≠ ' ' := by
      intro he
      rw [he] at ha
      simp [isPySpace] at ha
    rw [head?_collapse_of (a :: t) a rfl ha'] at hc
    rw [← Option.some.inj hc]
    exact ha

theorem lastNotWs_collapse (l : Str) (h : lastNotWs l) : lastNotWs (collapseSpaces l) := by
  intro c hc
  rw [getLast?_collapse] at hc
  exact h c hc

/-- Facts about the collapsed clean lines, the building blocks of the
`_clean_text` output. -/
theorem collapsedLines_facts (s : Str) :
    ∀ m ∈ (cleanLines s).map collapseSpaces,
      m ≠ [] ∧ pyStrip m = m ∧ hasDoubleSpace m = false ∧
        ∀ c ∈ m, isLineBreakChar c = false := by
  intro m hm
  rw [List.mem_map] at hm
  obtain ⟨x, hx, rfl⟩ := hm
  obtain ⟨hne, hstr, hlb⟩ := cleanLines_facts s x hx
  have hh : headNotWs x := by rw [← hstr]; exact headNotWs_pyStrip x
  have hl : lastNotWs x := by rw [← hstr]; exact lastNotWs_pyStrip x
  refine ⟨collapse_ne_nil x hne, ?_, hasDoubleSpace_collapse x, ?_⟩
  · exact pyStrip_eq_self _ (headNotWs_collapse x hh) (lastNotWs_collapse x hl)
  · intro c hc
    exact hlb c ((collapse_sublist x).subset hc)

/-- Structure of the `_clean_text` output: the collapsed clean lines joined
by single newlines (the final strip and the blank-collapsing loop are
no-ops). -/
theorem clean_text_eq (s : Str) :
    clean_text s = joinNL ((cleanLines s).map collapseSpaces) := by
  unfold clean_text
  rw [show ((pySplitlines s).map pyStrip).filter (fun l => !l.isEmpty) = cleanLines s
    from rfl]
  rw [blankCollapseAux_id _ (fun l hl => (cleanLines_facts s l hl).1) 0]
  rw [collapse_joinNL]
  apply pyStrip_eq_self
  · apply headNotWs_joinNL
    intro m hm
    obtain ⟨hne, hstr, _, _⟩ := collapsedLines_facts s m hm
    exact ⟨hne, by rw [← hstr]; exact headNotWs_pyStrip m⟩
  · apply lastNotWs_joinNL
    intro m hm
    obtain ⟨hne, hstr, _, _⟩ := collapsedLines_facts s m hm
    exact ⟨hne, by rw [← hstr]; exact lastNotWs_pyStrip m⟩

/-- `splitlines` is a left inverse of the newline join on non-empty,
break-free lines. -/
theorem pySplitlines_joinNL (M : List Str)
    (h : ∀ m ∈ M, m ≠ [] ∧ ∀ c ∈ m, isLineBreakChar c = false) :
    pySplitlines (joinNL M) = M := by
  induction M with
  | nil => rfl
  | cons m M ih =>
    cases M with
    | nil =>
      obtain ⟨hm, hlb⟩ := h m (List.mem_cons_self m [])
      show splitlinesAux [] m = [m]
      rw [splitlinesAux_flat m [] hlb]
      simp [hm]
    | cons m2 M2 =>
      obtain ⟨hm, hlb⟩ := h m (List.mem_cons_self m (m2 :: M2))
      show splitlinesAux [] (joinNL (m :: m2 :: M2)) = m :: m2 :: M2
      rw [joinNL_cons₂, splitlinesAux_append_line m hlb [] _, List.nil_append]
      exact congrArg _ (ih (fun x hx => h x (List.mem_cons_of_mem _ hx)))

/-- The lines of the `_clean_text` output are exactly the collapsed clean
lines. -/
theorem pySplitlines_clean_text (s : Str) :
    pySplitlines (clean_text s) = (cleanLines s).map collapseSpaces := by
  rw [clean_text_eq]
  apply pySplitlines_joinNL
  intro m hm
  obtain ⟨hne, _, _, hlb⟩ := collapsedLines_facts s m hm
  exact ⟨hne, hlb⟩

/-- **C9.** The whitespace cleaner `_clean_text` is idempotent: re-running
whitespace collapsing on its own output returns the output unchanged. -/
theorem clean_text_idempotent (s : Str) : clean_text (clean_text s) = clean_text s := by
  have hlines : cleanLines (clean_text s) = (cleanLines s).map collapseSpaces := by
    rw [show cleanLines (clean_text s) =
      ((pySplitlines (clean_text s)).map pyStrip).filter (fun l => !l.isEmpty) from rfl]
    rw [pySplitlines_clean_text]
    have hmapstrip : ((cleanLines s).map collapseSpaces).map pyStrip =
        (cleanLines s).map collapseSpaces := by
      rw [List.map_congr_left (fun m hm => (collapsedLines_facts s m hm).2.1)]
      exact List.map_id' _
    rw [hmapstrip]
    exact List.filter_eq_self.mpr (fun m hm => by
      have hne := (collapsedLines_facts s m hm).1
      simp [hne])
  rw [clean_text_eq (clean_text s), hlines]
  have hmapcol : ((cleanLines s).map collapseSpaces).map collapseSpaces =
      (cleanLines s).map collapseSpaces := by
    rw [List.map_congr_left
      (fun m hm => collapse_eq_self_of_noDS m (collapsedLines_facts s m hm).2.2.1)]
    exact List.map_id' _
  rw [hmapcol, ← clean_text_eq]

/-- **C10.** Every line of the `_clean_text` output is non-empty, carries no
leading or trailing whitespace, and contains no run of two or more spaces;
and the blank-line-collapsing branch is unreachable: on any list with the
whitespace-only lines already filtered out, the collapsing loop is the
identity. -/
theorem clean_text_lines_clean (s : Str) :
    (∀ l ∈ pySplitlines (clean_text s),
      l ≠ [] ∧ pyStrip l = l ∧ hasDoubleSpace l = false) ∧
    (∀ L : List Str, ∀ n,
      blankCollapseAux n (L.filter (fun l => !l.isEmpty)) =
        L.filter (fun l => !l.isEmpty)) := by
  constructor
  · intro l hl
    rw [pySplitlines_clean_text] at hl
    obtain ⟨hne, hstr, hds, _⟩ := collapsedLines_facts s l hl
    exact ⟨hne, hstr, hds⟩
  · intro L n
    apply blankCollapseAux_id
    intro l hl
    rw [List.mem_filter] at hl
    intro h0
    rw [h0] at hl
    simp at hl

/-! ## Claims about the scrape pipeline -/

theorem truncBody_length (t : Str) :
    (truncBody t).length ≤ MAX_CHARS + truncMarker.length := by
  unfold truncBody
  split
  · rw [List.length_append, List.length_take]
    omega
  · next h => omega

/-! Branch equations of `scrape` (a valid URL reaches the fetch branches). -/

theorem scrape_eq_invalid (url : Str) (f : FetchOutcome)
    (h : (isPref "http://".data url || isPref "https://".data url) = false) :
    scrape url f = errInvalidUrl url := by
  unfold scrape
  rw [h]
  rfl

theorem scrape_eq_timeout (url : Str)
    (h : (isPref "http://".data url || isPref "https://".data url) = true) :
    scrape url .timeout = errTimeout := by
  unfold scrape
  rw [h]
  rfl

theorem scrape_eq_conn (url : Str)
    (h : (isPref "http://".data url || isPref "https://".data url) = true) :
    scrape url .connectionError = errConnection url := by
  unfold scrape
  rw [h]
  rfl

theorem scrape_eq_http (url : Str) (status : Nat)
    (h : (isPref "http://".data url || isPref "https://".data url) = true) :
    scrape url (.httpError status) =
      if status = 403 then err403 url
      else if status = 404 then err404 url
      else errHTTP url status := by
  unfold scrape
  rw [h]
  rfl

theorem scrape_eq_req (url msg : Str)
    (h : (isPref "http://".data url || isPref "https://".data url) = true) :
    scrape url (.requestError msg) = errRequest url msg := by
  unfold scrape
  rw [h]
  rfl

theorem scrape_eq_success (url ct : Str) (doc : List Node)
    (h : (isPref "http://".data url || isPref "https://".data url) = true) :
    scrape url (.success ct doc) =
      if (!containsSub "text/html".data ct) = true then errContentType ct
      else scrapeHTML url doc := by
  unfold scrape
  rw [h]
  rfl

theorem scrapeHTML_eq (url : Str) (doc : List Node) :
    scrapeHTML url doc =
      match mainContent (stripNoise doc) with
      | none => errNoContent
      | some n =>
        if (clean_text (get_text ['\n'] n)).isEmpty = true then errNoText
        else headerOf url (stripNoise doc) ++ truncBody (clean_text (get_text ['\n'] n)) :=
  rfl

/-- **C3.** On every successful extraction the output is `header ++ body`
with the body truncated at the 3000-character budget: the total length is at
most the header length plus 3000 plus the marker length, and an over-long
normalized text is cut at exactly 3000 characters with the literal marker
appended. -/
theorem scrape_success_bounded (url ct : Str) (doc : List Node) (n : Node)
    (hurl : (isPref "http://".data url || isPref "https://".data url) = true)
    (hct : containsSub "text/html".data ct = true)
    (hmc : mainContent (stripNoise doc) = some n)
    (hne : (clean_text (get_text ['\n'] n)).isEmpty = false) :
    scrape url (.success ct doc) =
      headerOf url (stripNoise doc) ++ truncBody (clean_text (get_text ['\n'] n)) ∧
    (scrape url (.success ct doc)).length ≤
      (headerOf url (stripNoise doc)).length + MAX_CHARS + truncMarker.length ∧
    (MAX_CHARS < (clean_text (get_text ['\n'] n)).length →
      truncBody (clean_text (get_text ['\n'] n)) =
        (clean_text (get_text ['\n'] n)).take MAX_CHARS ++ truncMarker) := by
  have hshape : scrape url (.success ct doc) =
      headerOf url (stripNoise doc) ++ truncBody (clean_text (get_text ['\n'] n)) := by
    rw [scrape_eq_success url ct doc hurl, hct]
    simp only [Bool.not_true, Bool.false_eq_true, if_false]
    rw [scrapeHTML_eq, hmc]
    simp only [hne, Bool.false_eq_true, if_false]
  refine ⟨hshape, ?_, ?_⟩
  · rw [hshape, List.length_append]
    have := truncBody_length (clean_text (get_text ['\n'] n))
    omega
  · intro hlong
    unfold truncBody
    rw [if_pos hlong]

/-- A body-only sample page used to instantiate the success path. -/
def sampleBody : Node := Node.elem "body".data [] [Node.text "hello world".data]

def sampleDoc : List Node := [Node.elem "html".data [] [sampleBody]]

theorem scrape_success_bounded_witness :
    scrape "https://e.com".data (.success "text/html".data sampleDoc) =
      headerOf "https://e.com".data (stripNoise sampleDoc) ++
        truncBody (clean_text (get_text ['\n'] sampleBody)) :=
  (scrape_success_bounded "https://e.com".data "text/html".data sampleDoc sampleBody
    (by decide) (by decide) rfl rfl).1

/-- The possible shapes of a `scrape` return value: one of the ten
descriptive error strings, or the assembled `header ++ body` success text. -/
def ScrapeOutputShape (url out : Str) : Prop :=
  out = errInvalidUrl url ∨ out = errTimeout ∨ out = errConnection url ∨
  out = err403 url ∨ out = err404 url ∨ (∃ s, out = errHTTP url s) ∨
  (∃ m, out = errRequest url m) ∨ (∃ ct, out = errContentType ct) ∨
  out = errNoContent ∨ out = errNoText ∨
  (∃ soup t, out = headerOf url soup ++ truncBody t)

/-- **C2.** `scrape` always returns a value (it is a total function into
strings — never an exception), every return is either success text or one of
the expected failure messages, and the ten failure modes surface as ten
pairwise distinct descriptive error strings. -/
theorem scrape_total_errors_distinct :
    (∀ url fetch, ScrapeOutputShape url (scrape url fetch)) ∧
    List.Nodup
      ["https://e.com".data |> errInvalidUrl, errTimeout,
       errConnection "https://e.com".data, err403 "https://e.com".data,
       err404 "https://e.com".data, errHTTP "https://e.com".data 500,
       errRequest "https://e.com".data "boom".data,
       errContentType "application/pdf".data, errNoContent, errNoText] := by
  constructor
  · intro url fetch
    by_cases hurl : (isPref "http://".data url || isPref "https://".data url) = true
    · cases fetch with
      | timeout =>
        rw [scrape_eq_timeout url hurl]
        exact Or.inr (Or.inl rfl)
      | connectionError =>
        rw [scrape_eq_conn url hurl]
        exact Or.inr (Or.inr (Or.inl rfl))
      | httpError status =>
        rw [scrape_eq_http url status hurl]
        by_cases h3 : status = 403
        · rw [if_pos h3]
          exact Or.inr (Or.inr (Or.inr (Or.inl rfl)))
        · rw [if_neg h3]
          by_cases h4 : status = 404
          · rw [if_pos h4]
            exact Or.inr (Or.inr (Or.inr (Or.inr (Or.inl rfl))))
          · rw [if_neg h4]
            exact Or.inr (Or.inr (Or.inr (Or.inr (Or.inr (Or.inl ⟨status, rfl⟩)))))
      | requestError msg =>
        rw [scrape_eq_req url msg hurl]
        exact Or.inr (Or.inr (Or.inr (Or.inr (Or.inr (Or.inr (Or.inl ⟨msg, rfl⟩))))))
      | success ct doc =>
        rw [scrape_eq_success url ct doc hurl]
        by_cases hct : containsSub "text/html".data ct = true
        · rw [hct]
          simp only [Bool.not_true, Bool.false_eq_true, if_false]
          rw [scrapeHTML_eq]
          cases hmc : mainContent (stripNoise doc) with
          | none =>
            exact Or.inr (Or.inr (Or.inr (Or.inr (Or.inr (Or.inr (Or.inr (Or.inr
              (Or.inl rfl))))))))
          | some n =>
            show ScrapeOutputShape url
              (if (clean_text (get_text ['\n'] n)).isEmpty = true then errNoText
               else headerOf url (stripNoise doc) ++
                 truncBody (clean_text (get_text ['\n'] n)))
            by_cases hemp : (clean_text (get_text ['\n'] n)).isEmpty = true
            · rw [if_pos hemp]
              exact Or.inr (Or.inr (Or.inr (Or.inr (Or.inr (Or.inr (Or.inr (Or.inr
                (Or.inr (Or.inl rfl)))))))))
            · rw [if_neg hemp]
              exact Or.inr (Or.inr (Or.inr (Or.inr (Or.inr (Or.inr (Or.inr (Or.inr
                (Or.inr (Or.inr
                  ⟨stripNoise doc, clean_text (get_text ['\n'] n), rfl⟩)))))))))
        · rw [Bool.not_eq_true] at hct
          rw [hct]
          simp only [Bool.not_false, if_true]
          exact Or.inr (Or.inr (Or.inr (Or.inr (Or.inr (Or.inr (Or.inr (Or.inl
            ⟨ct, rfl⟩)))))))
    · rw [Bool.not_eq_true] at hurl
      rw [scrape_eq_invalid url fetch hurl]
      exact Or.inl rfl
  · decide

/-! ## Claims about hidden-style removal (C5) -/

theorem stripPref_eq_some (p : Str) : ∀ l r, stripPref p l = some r ↔ l = p ++ r := by
  induction p with
  | nil =>
    intro l r
    simp [stripPref]
  | cons a p ih =>
    intro l r
    cases l with
    | nil => simp [stripPref]
    | cons b l' =>
      by_cases hab : a = b
      · subst hab
        simp [stripPref, ih]
      · simp [stripPref, hab]
        intro he
        exact absurd he.symm hab

theorem isPref_iff (p : Str) : ∀ l, isPref p l = true ↔ ∃ t, l = p ++ t := by
  induction p with
  | nil =>
    intro l
    simp [isPref]
  | cons a p ih =>
    intro l
    cases l with
    | nil =>
      simp [isPref]
    | cons b l' =>
      show (decide (a = b) && isPref p l') = true ↔ _
      by_cases hab : a = b
      · subst hab
        simp [ih]
      · constructor
        · intro h
          rw [decide_eq_false hab] at h
          simp at h
        · rintro ⟨t, ht⟩
          rw [List.cons_append, List.cons.injEq] at ht
          exact absurd ht.1.symm hab

theorem dropWhile_append_all (p : Char → Bool) (ws x : Str)
    (h : ∀ c ∈ ws, p c = true) : (ws ++ x).dropWhile p = x.dropWhile p := by
  induction ws with
  | nil => rfl
  | cons a t ih =>
    rw [List.cons_append, List.dropWhile_cons, if_pos (h a (List.mem_cons_self a t))]
    exact ih (fun c hc => h c (List.mem_cons_of_mem _ hc))

/-- The regex `display:\s*none|visibility:\s*hidden` matches `v` (as written
in the source: lowercase literals, `\s*` gaps). -/
def HiddenSpec (v : Str) : Prop :=
  ∃ pre ws post, (∀ c ∈ ws, isReWs c = true) ∧
    (v = pre ++ "display:".data ++ ws ++ "none".data ++ post ∨
     v = pre ++ "visibility:".data ++ ws ++ "hidden".data ++ post)

theorem hiddenHere_iff (v : Str) : hiddenHere v = true ↔
    ∃ ws post, (∀ c ∈ ws, isReWs c = true) ∧
      (v = "display:".data ++ ws ++ "none".data ++ post ∨
       v = "visibility:".data ++ ws ++ "hidden".data ++ post) := by
  constructor
  · intro h
    unfold hiddenHere at h
    rw [Bool.or_eq_true] at h
    rcases h with h | h
    · rcases hm : stripPref "display:".data v with - | r
      · rw [hm] at h
        simp at h
      · rw [hm] at h
        obtain ⟨t, ht⟩ := (isPref_iff _ _).mp h
        refine ⟨r.takeWhile isReWs, t, fun c hc => List.mem_takeWhile_imp hc, Or.inl ?_⟩
        have hv : v = "display:".data ++ r := (stripPref_eq_some _ _ _).mp hm
        have hr : r = r.takeWhile isReWs ++ ("none".data ++ t) := by
          conv_lhs => rw [← List.takeWhile_append_dropWhile isReWs r]
          rw [ht]
        rw [hv]
        conv_lhs => rw [hr]
        simp [List.append_assoc]
    · rcases hm : stripPref "visibility:".data v with - | r
      · rw [hm] at h
        simp at h
      · rw [hm] at h
        obtain ⟨t, ht⟩ := (isPref_iff _ _).mp h
        refine ⟨r.takeWhile isReWs, t, fun c hc => List.mem_takeWhile_imp hc, Or.inr ?_⟩
        have hv : v = "visibility:".data ++ r := (stripPref_eq_some _ _ _).mp hm
        have hr : r = r.takeWhile isReWs ++ ("hidden".data ++ t) := by
          conv_lhs => rw [← List.takeWhile_append_dropWhile isReWs r]
          rw [ht]
        rw [hv]
        conv_lhs => rw [hr]
        simp [List.append_assoc]
  · rintro ⟨ws, post, hws, hc | hc⟩
    · unfold hiddenHere
      rw [Bool.or_eq_true]
      left
      have hm : stripPref "display:".data v = some (ws ++ "none".data ++ post) := by
        apply (stripPref_eq_some _ _ _).mpr
        rw [hc]
        simp
      rw [hm]
      show isPref "none".data ((ws ++ "none".data ++ post).dropWhile isReWs) = true
      have hd : (ws ++ "none".data ++ post).dropWhile isReWs =
          ("none".data ++ post).dropWhile isReWs := by
        rw [List.append_assoc]
        exact dropWhile_append_all _ ws _ hws
      rw [hd, show ("none".data ++ post).dropWhile isReWs = "none".data ++ post from by
        rw [show ("none".data ++ post) = 'n' :: ("one".data ++ post) from rfl]
        rw [List.dropWhile_cons, if_neg (by decide)]]
      exact (isPref_iff _ _).mpr ⟨post, rfl⟩
    · unfold hiddenHere
      rw [Bool.or_eq_true]
      right
      have hm : stripPref "visibility:".data v = some (ws ++ "hidden".data ++ post) := by
        apply (stripPref_eq_some _ _ _).mpr
        rw [hc]
        simp
      rw [hm]
      show isPref "hidden".data ((ws ++ "hidden".data ++ post).dropWhile isReWs) = true
      have hd : (ws ++ "hidden".data ++ post).dropWhile isReWs =
          ("hidden".data ++ post).dropWhile isReWs := by
        rw [List.append_assoc]
        exact dropWhile_append_all _ ws _ hws
      rw [hd, show ("hidden".data ++ post).dropWhile isReWs = "hidden".data ++ post from by
        rw [show ("hidden".data ++ post) = 'h' :: ("idden".data ++ post) from rfl]
        rw [List.dropWhile_cons, if_neg (by decide)]]
      exact (isPref_iff _ _).mpr ⟨post, rfl⟩

theorem styleHidden_cons (c : Char) (rest : Str) :
    styleHidden (c :: rest) = (hiddenHere (c :: rest) || styleHidden rest) := rfl

/-- Correctness of the embedded regex search: `styleHidden` holds exactly on
the strings matched by `display:\s*none|visibility:\s*hidden`. -/
theorem styleHidden_iff (v : Str) : styleHidden v = true ↔ HiddenSpec v := by
  induction v with
  | nil =>
    constructor
    · intro h
      simp [styleHidden] at h
    · rintro ⟨pre, ws, post, hws, hc | hc⟩ <;>
      · have hlen := congrArg List.length hc
        simp only [List.length_nil, List.length_append, List.length_cons] at hlen
        omega
  | cons c rest ih =>
    rw [styleHidden_cons]
    constructor
    · intro h
      rw [Bool.or_eq_true] at h
      rcases h with h | h
      · obtain ⟨ws, post, hws, hc⟩ := (hiddenHere_iff _).mp h
        exact ⟨[], ws, post, hws, by simpa using hc⟩
      · obtain ⟨pre, ws, post, hws, hc⟩ := ih.mp h
        refine ⟨c :: pre, ws, post, hws, ?_⟩
        rcases hc with hc | hc
        · left
          rw [hc]
          simp [List.cons_append, List.append_assoc]
        · right
          rw [hc]
          simp [List.cons_append, List.append_assoc]
    · rintro ⟨pre, ws, post, hws, hc⟩
      cases pre with
      | nil =>
        rw [Bool.or_eq_true]
        left
        apply (hiddenHere_iff _).mpr
        exact ⟨ws, post, hws, by simpa using hc⟩
      | cons p pre' =>
        rw [Bool.or_eq_true]
        right
        apply ih.mpr
        refine ⟨pre', ws, post, hws, ?_⟩
        rcases hc with hc | hc
        · left
          simp only [List.cons_append, List.cons.injEq] at hc
          exact hc.2
        · right
          simp only [List.cons_append, List.cons.injEq] at hc
          exact hc.2

mutual
/-- Element nodes of one node (itself if an element, plus descendants). -/
def elemsOfN : Node → List Node
  | Node.text _ => []
  | Node.elem t a c => Node.elem t a c :: elemsOf c

/-- All element nodes of a forest, in document order. -/
def elemsOf : List Node → List Node
  | [] => []
  | n :: rest => elemsOfN n ++ elemsOf rest
end

/-- The inline style attribute of a node, if any. -/
def styleOfN : Node → Option Str
  | Node.elem _ a _ => getAttr a "style".data
  | Node.text _ => none

theorem removeHidden_nil : removeHidden [] = [] := rfl

theorem removeHidden_cons (n : Node) (rest : List Node) :
    removeHidden (n :: rest) =
      if isHiddenNode n then removeHidden rest
      else removeHiddenN n :: removeHidden rest := by
  rw [removeHidden]

theorem elemsOf_cons (n : Node) (rest : List Node) :
    elemsOf (n :: rest) = elemsOfN n ++ elemsOf rest := by
  rw [elemsOf]

/-- **C5 (amended).** After hidden-style removal no surviving element node
carries a style attribute matched by the case-sensitive regex
`display:\s*none|visibility:\s*hidden`; the match is NOT case-insensitive. -/
theorem removeHidden_no_hidden (ns : List Node) :
    ∀ n ∈ elemsOf (removeHidden ns), ∀ v, styleOfN n = some v →
      styleHidden v = false ∧ ¬ HiddenSpec v := by
  have key : ∀ k, ∀ ms : List Node, sizeOf ms ≤ k →
      ∀ n ∈ elemsOf (removeHidden ms), ∀ v, styleOfN n = some v →
        styleHidden v = false ∧ ¬ HiddenSpec v := by
    intro k
    induction k with
    | zero =>
      intro ms hsz
      cases ms with
      | nil => intro n hn; rw [removeHidden_nil] at hn; simp [elemsOf] at hn
      | cons m rest =>
        exfalso
        rw [List.cons.sizeOf_spec] at hsz
        omega
    | succ k ih =>
      intro ms hsz
      cases ms with
      | nil => intro n hn; rw [removeHidden_nil] at hn; simp [elemsOf] at hn
      | cons m rest =>
        intro n hn v hv
        have hsm : 1 ≤ sizeOf m := by
          cases m with
          | elem t a c => rw [Node.elem.sizeOf_spec]; omega
          | text s => rw [Node.text.sizeOf_spec]; omega
        have hszrest : sizeOf rest ≤ k := by
          rw [List.cons.sizeOf_spec] at hsz
          omega
        rw [removeHidden_cons] at hn
        by_cases hhid : isHiddenNode m = true
        · rw [if_pos hhid] at hn
          exact ih rest hszrest n hn v hv
        · rw [Bool.not_eq_true] at hhid
          rw [if_neg (by rw [hhid]; exact Bool.false_ne_true)] at hn
          rw [elemsOf_cons] at hn
          rcases List.mem_append.mp hn with hn | hn
          · cases m with
            | text s => simp [removeHiddenN, elemsOfN] at hn
            | elem t a c =>
              rw [show removeHiddenN (Node.elem t a c) =
                Node.elem t a (removeHidden c) from rfl] at hn
              rw [show elemsOfN (Node.elem t a (removeHidden c)) =
                Node.elem t a (removeHidden c) :: elemsOf (removeHidden c) from by
                  rw [elemsOfN]] at hn
              rcases List.mem_cons.mp hn with rfl | hn
              · have hstyle : getAttr a "style".data = some v := hv
                have hsh : styleHidden v = false := by
                  have hh : isHiddenStyled a = false := hhid
                  unfold isHiddenStyled at hh
                  rw [hstyle] at hh
                  exact hh
                refine ⟨hsh, fun hspec => ?_⟩
                rw [(styleHidden_iff v).mpr hspec] at hsh
                exact Bool.noConfusion hsh
              · have hszc : sizeOf c ≤ k := by
                  rw [List.cons.sizeOf_spec, Node.elem.sizeOf_spec] at hsz
                  omega
                exact ih c hszc n hn v hv
          · exact ih rest hszrest n hn v hv
  intro n hn v hv
  exact key (sizeOf ns) ns (Nat.le_refl _) n hn v hv

/-- A node whose style names the hidden pattern in upper case. -/
def upperHiddenNode : Node :=
  Node.elem "div".data [("style".data, "DISPLAY:NONE".data)] [Node.text "x".data]

/-- **C5 (counterexample).** The claim predicts that a node styled
`DISPLAY:NONE` is removed (case-insensitive match); in fact the source regex
is compiled without `re.I`, the pattern does not match, and the node
survives noise stripping unchanged. -/
theorem hidden_removal_not_case_insensitive :
    styleHidden "DISPLAY:NONE".data = false ∧
    removeHidden [upperHiddenNode] = [upperHiddenNode] :=
  ⟨by decide, rfl⟩

/-- A surviving node with an innocuous style attribute. -/
def plainStyledNode : Node :=
  Node.elem "div".data [("style".data, "color:red".data)] [Node.text "y".data]

theorem removeHidden_no_hidden_witness :
    styleHidden "color:red".data = false ∧ ¬ HiddenSpec "color:red".data :=
  removeHidden_no_hidden [plainStyledNode] plainStyledNode
    (show plainStyledNode ∈ [plainStyledNode] from List.mem_singleton.mpr rfl)
    "color:red".data rfl

/-! ## Claims about search formatting (C4) and the num_results cap (C8) -/

/-- Specification-shaped rendering of the numbered entries: enumerate from
`start`, keep exactly the entries with both a non-empty title and a
non-empty link. -/
def specEntryLines (entries : List SearchEntry) (start : Nat) : List Str :=
  (List.enumFrom start entries).filterMap
    (fun p => if !p.2.title.isEmpty && !p.2.link.isEmpty then some (fmtEntry p.1 p.2) else none)

theorem formatEntriesLoop_eq (entries : List SearchEntry) :
    ∀ i, formatEntriesLoop i entries = specEntryLines entries i := by
  induction entries with
  | nil => intro i; rfl
  | cons r rest ih =>
    intro i
    show formatEntriesLoop i (r :: rest) =
      ((i, r) :: List.enumFrom (i + 1) rest).filterMap _
    rw [List.filterMap_cons]
    by_cases hc : (!r.title.isEmpty && !r.link.isEmpty) = true
    · rw [show formatEntriesLoop i (r :: rest) =
        fmtEntry i r :: formatEntriesLoop (i + 1) rest from by simp [formatEntriesLoop, hc]]
      simp only [hc, if_true]
      rw [ih (i + 1)]
      rfl
    · rw [Bool.not_eq_true] at hc
      rw [show formatEntriesLoop i (r :: rest) = formatEntriesLoop (i + 1) rest
        from by simp [formatEntriesLoop, hc]]
      simp only [hc, Bool.false_eq_true, if_false]
      exact ih (i + 1)

theorem fmtEntry_ne_nil (i : Nat) (r : SearchEntry) : fmtEntry i r ≠ [] := by
  unfold fmtEntry
  simp

theorem answerLines_none (data : SearchData) (h : data.answerBox = none) :
    answerLines data = [] := by
  unfold answerLines
  rw [h]

theorem answerLines_some (data : SearchData) (box : AnswerBox)
    (h : data.answerBox = some box) :
    answerLines data =
      if (!box.answer.isEmpty) = true then ["DIRECT ANSWER: ".data ++ box.answer]
      else [] := by
  unfold answerLines
  rw [h]

theorem answerLines_ne_nil (data : SearchData) : ∀ m ∈ answerLines data, m ≠ [] := by
  intro m hm
  cases hab : data.answerBox with
  | none => rw [answerLines_none data hab] at hm; simp at hm
  | some box =>
    rw [answerLines_some data box hab] at hm
    by_cases hb : (!box.answer.isEmpty) = true
    · rw [if_pos hb, List.mem_singleton] at hm
      subst hm
      simp
    · rw [if_neg hb] at hm
      simp at hm

theorem specEntryLines_ne_nil (entries : List SearchEntry) (start : Nat) :
    ∀ m ∈ specEntryLines entries start, m ≠ [] := by
  intro m hm
  unfold specEntryLines at hm
  rw [List.mem_filterMap] at hm
  obtain ⟨p, -, hp⟩ := hm
  by_cases hc : (!p.2.title.isEmpty && !p.2.link.isEmpty) = true
  · rw [if_pos hc] at hp
    rw [← Option.some.inj hp]
    exact fmtEntry_ne_nil p.1 p.2
  · rw [if_neg hc] at hp
    exact absurd hp (by simp)

theorem joinNL_isEmpty_of_parts (parts : List Str) (h : ∀ m ∈ parts, m ≠ []) :
    (joinNL parts).isEmpty = parts.isEmpty := by
  cases parts with
  | nil => rfl
  | cons m M =>
    have := joinNL_ne_nil m M (h m (List.mem_cons_self m M))
    simp [List.isEmpty_iff, this]

/-- **C4 (amended).** `search_and_format` renders an optional leading
`DIRECT ANSWER:` line, then the numbered entries of the first `n` organic
results keeping exactly those with BOTH a non-empty title and a non-empty
link (an entry missing either one is skipped), and returns the canonical
`"No results found."` exactly when no line survives. -/
theorem search_and_format_amended (data : SearchData) (n : Nat) :
    (search_and_format data n =
      (if (answerLines data ++ specEntryLines ((data.organic.getD []).take n) 0).isEmpty
       then noResultsMsg
       else joinNL (answerLines data ++ specEntryLines ((data.organic.getD []).take n) 0))) ∧
    (∀ r rest i, specEntryLines (r :: rest) i =
      (if r.title ≠ [] ∧ r.link ≠ [] then [fmtEntry i r] else []) ++
        specEntryLines rest (i + 1)) := by
  constructor
  · have hparts : ∀ m ∈ answerLines data ++ specEntryLines ((data.organic.getD []).take n) 0,
        m ≠ [] := by
      intro m hm
      rcases List.mem_append.mp hm with hm | hm
      · exact answerLines_ne_nil data m hm
      · exact specEntryLines_ne_nil _ _ m hm
    have hentries : (match data.organic with
        | some l => formatEntriesLoop 0 (l.take n)
        | none => []) = specEntryLines ((data.organic.getD []).take n) 0 := by
      cases data.organic with
      | none => simp [specEntryLines]
      | some l => exact formatEntriesLoop_eq (l.take n) 0
    show (if (!(joinNL (answerLines data ++ _)).isEmpty) = true
          then joinNL (answerLines data ++ _) else noResultsMsg) = _
    rw [hentries]
    rw [joinNL_isEmpty_of_parts _ hparts]
    by_cases hemp :
        (answerLines data ++ specEntryLines ((data.organic.getD []).take n) 0).isEmpty = true
    · rw [hemp]
      simp only [Bool.not_true, Bool.false_eq_true, if_false, if_true]
    · rw [Bool.not_eq_true] at hemp
      rw [hemp]
      simp only [Bool.not_false, if_true, Bool.false_eq_true, if_false]
  · intro r rest i
    show (List.enumFrom i (r :: rest)).filterMap _ = _
    rw [show List.enumFrom i (r :: rest) = (i, r) :: List.enumFrom (i + 1) rest from rfl]
    rw [List.filterMap_cons]
    by_cases hc : r.title ≠ [] ∧ r.link ≠ []
    · have hb : (!r.title.isEmpty && !r.link.isEmpty) = true := by
        obtain ⟨h1, h2⟩ := hc
        simp [List.isEmpty_iff, h1, h2]
      simp only [hb, if_true, if_pos hc]
      rfl
    · have hb : (!r.title.isEmpty && !r.link.isEmpty) = false := by
        rcases not_and_or.mp hc with h | h <;>
        · rw [not_not] at h
          simp [h]
      simp only [hb, Bool.false_eq_true, if_false, if_neg hc]
      rfl

/-- An organic entry with a title but no link. -/
def lonelyTitleEntry : SearchEntry := ⟨"T".data, [], []⟩

def lonelyTitleData : SearchData := ⟨none, some [lonelyTitleEntry]⟩

/-- **C4 (counterexample).** The claim says only entries missing BOTH title
and URL are skipped.  This entry has a title (it is not missing both), yet
the source skips it — it misses only the link — and the output is the
canonical empty-result string. -/
theorem search_skips_entry_missing_only_link :
    (lonelyTitleEntry.title ≠ [] ∨ lonelyTitleEntry.link ≠ []) ∧
    search_and_format lonelyTitleData 5 = noResultsMsg := by
  constructor
  · left
    decide
  · rfl

/-- A search dispatch asking for more than ten results. -/
def bigNumInput : ToolInput := ⟨some "q".data, some 15, none⟩

/-- **C8 (counterexample).** The claim says every dispatch with
`num_results > 10` reaches the search backend with a value of at most 10;
in fact the registry passes the value through unclamped: a dispatch with 15
builds a backend request whose `num` field is 15. -/
theorem search_num_results_not_capped :
    (searchRequestOf bigNumInput).num = 15 ∧ ¬(searchRequestOf bigNumInput).num ≤ 10 := by
  constructor <;> decide

/-- **C8 (amended).** No component caps `num_results`: the `web_search`
dispatch of the registry calls the backend with exactly the requested value
(default 5 when absent), and formats with that same value.  The "max 10" of
the schema is description text only. -/
theorem search_num_passthrough (backend : SerperRequest → SearchData)
    (fetch : Str → FetchOutcome) (q : Str) (n : Nat) :
    tool_registry_execute backend fetch "web_search".data ⟨some q, some n, none⟩ =
      search_and_format (backend (webSearchRequest q n)) n ∧
    (∀ input : ToolInput, (searchRequestOf input).num = input.numResults.getD 5) :=
  ⟨rfl, fun _ => rfl⟩

theorem clean_text_lines_clean_witness :
    "a b".data ≠ [] ∧ pyStrip "a b".data = "a b".data ∧
      hasDoubleSpace "a b".data = false :=
  (clean_text_lines_clean "a  b".data).1 "a b".data (by decide)

/-! ## Claims about the loop and the transcript (C1, C6, C7) -/

theorem chainOk_append_one (p : Message) (xs : List Message) (x : Message) :
    chainOk p (xs ++ [x]) = (chainOk p xs && stepOk (xs.getLastD p) x) := by
  induction xs generalizing p with
  | nil => simp [chainOk]
  | cons y ys ih =>
    show (stepOk p y && chainOk y (ys ++ [x])) = _
    rw [ih y]
    simp [chainOk, Bool.and_assoc, List.getLastD_cons, List.getLast?_cons]

theorem goodTranscript_append_one (xs : List Message) (x : Message) (hne : xs ≠ []) :
    goodTranscript (xs ++ [x]) =
      (goodTranscript xs && stepOk (xs.getLastD x) x) := by
  cases xs with
  | nil => exact absurd rfl hne
  | cons y ys =>
    show (firstOk y && chainOk y (ys ++ [x])) = _
    rw [chainOk_append_one y ys x]
    simp [goodTranscript, Bool.and_assoc, List.getLastD_cons, List.getLast?_cons]

theorem stepOk_user_assistant (m : Message) (bs : List Block) (h : m.role = .user) :
    stepOk m ⟨.assistant, .ofBlocks bs⟩ = true := by
  simp [stepOk, isToolResultsMsg, h]

theorem stepOk_assistant_results (bs : List Block) (rs : List ToolResultMsg)
    (h : bs.any isToolUseBlock = true) :
    stepOk ⟨.assistant, .ofBlocks bs⟩ ⟨.user, .ofResults rs⟩ = true := by
  simp [stepOk, isToolResultsMsg, hasToolUseBlock, h]

/-- One loop step preserves well-formedness of the transcript, assuming the
backend marks tool_use responses with at least one tool_use block. -/
theorem runSteps_preserves (oracle : List Message → ModelResponse)
    (g : Str → ToolInput → Str)
    (hOracle : ∀ msgs, (oracle msgs).stopReason = .toolUse →
      (oracle msgs).content.any isToolUseBlock = true) :
    ∀ fuel (mem : ConversationMemory) calls,
      goodTranscript mem.messages = true →
      (∃ m, mem.messages.getLast? = some m ∧ m.role = .user) →
      goodTranscript (runSteps oracle g fuel mem calls).memory.messages = true := by
  intro fuel
  induction fuel with
  | zero => intro mem calls hg _; exact hg
  | succ fuel ih =>
    intro mem calls hg hl
    obtain ⟨lastm, hlast, hrole⟩ := hl
    have hne : mem.messages ≠ [] := by
      intro h0
      rw [h0] at hlast
      simp at hlast
    have hgetD : ∀ x : Message, mem.messages.getLastD x = lastm := by
      intro x
      rw [List.getLastD_eq_getLast?, hlast]
      rfl
    have hassist : ∀ bs : List Block,
        goodTranscript (mem.messages ++ [⟨.assistant, .ofBlocks bs⟩]) = true := by
      intro bs
      rw [goodTranscript_append_one _ _ hne, hg, hgetD]
      rw [stepOk_user_assistant lastm bs hrole]
      rfl
    show goodTranscript (runSteps oracle g (fuel + 1) mem calls).memory.messages = true
    rw [show runSteps oracle g (fuel + 1) mem calls =
      (match (oracle mem.messages).stopReason with
       | .endTurn =>
         ⟨if (extract_text (oracle mem.messages).content).isEmpty then FALLBACK_MESSAGE
           else extract_text (oracle mem.messages).content,
          add_assistant_message mem (oracle mem.messages).content, calls + 1⟩
       | .toolUse =>
         runSteps oracle g fuel
           (add_tool_results (add_assistant_message mem (oracle mem.messages).content)
             (execute_tools g (oracle mem.messages).content)) (calls + 1)
       | .otherReason _ => ⟨FALLBACK_MESSAGE, mem, calls + 1⟩) from rfl]
    cases hsr : (oracle mem.messages).stopReason with
    | endTurn => exact hassist (oracle mem.messages).content
    | toolUse =>
      apply ih
      · show goodTranscript ((mem.messages ++ [⟨.assistant, .ofBlocks _⟩]) ++
          [⟨.user, .ofResults _⟩]) = true
        rw [goodTranscript_append_one _ _ (by simp), hassist]
        rw [List.getLastD_eq_getLast?, List.getLast?_concat]
        show (true && stepOk ⟨.assistant, .ofBlocks (oracle mem.messages).content⟩ _) = true
        rw [stepOk_assistant_results _ _ (hOracle mem.messages hsr)]
        rfl
      · exact ⟨⟨.user, .ofResults (execute_tools g (oracle mem.messages).content)⟩,
          List.getLast?_concat _, rfl⟩
    | otherReason s => exact hg

/-- **C1 (amended).** For every run of the agent loop on a cleared memory
against a backend whose tool_use responses carry at least one tool_use
block, the final transcript is well-formed: turns strictly alternate
starting with a requester (user) turn, and every tool-results batch appears
only directly after an assistant turn containing a tool_use block.
(Arbitrary operation sequences on the memory do NOT preserve this — see the
counterexample.) -/
theorem run_transcript_wellformed (oracle : List Message → ModelResponse)
    (g : Str → ToolInput → Str) (question : Str)
    (hOracle : ∀ msgs, (oracle msgs).stopReason = .toolUse →
      (oracle msgs).content.any isToolUseBlock = true) :
    goodTranscript (run oracle g emptyMemory question).memory.messages = true := by
  unfold run
  apply runSteps_preserves oracle g hOracle MAX_ITERATIONS _ 0
  · rfl
  · exact ⟨⟨.user, .ofText question⟩, rfl, rfl⟩

/-- A backend that answers immediately with plain text. -/
def endOracle : List Message → ModelResponse :=
  fun _ => ⟨.endTurn, [Block.text "hi".data]⟩

/-- A router stub returning a fixed observation string. -/
def constTool : Str → ToolInput → Str := fun _ _ => "ok".data

theorem run_transcript_wellformed_witness :
    goodTranscript (run endOracle constTool emptyMemory "q".data).memory.messages = true :=
  run_transcript_wellformed endOracle constTool "q".data
    (fun _ h => StopReason.noConfusion h)

/-- **C1 (counterexample).** The conversation state manager itself enforces
nothing: the operation sequence [add_user_message "a", add_user_message "b"]
produces two adjacent requester turns, so the alternation invariant fails
for this sequence of operations, contradicting the claim quantified over
EVERY operation sequence. -/
theorem transcript_not_always_alternating :
    goodTranscript
      (applyOps emptyMemory [MemOp.userMsg "a".data, MemOp.userMsg "b".data]).messages
      = false := rfl

/-- The tool_use blocks of a response, in order of appearance. -/
def toolUseTriples (bs : List Block) : List (Str × Str × ToolInput) :=
  bs.filterMap (fun b =>
    match b with
    | .toolUse id name input => some (id, name, input)
    | _ => none)

/-- **C6.** `_execute_tools` runs exactly the tool_use blocks of the single
response, in their order of appearance, producing one result per request
whose `tool_use_id` echoes the request id exactly and whose content is the
router output for that name and input; and on a tool_use step the loop
appends the whole batch as one single user (tool-results) message following
the saved assistant message. -/
theorem execute_tools_echoes (g : Str → ToolInput → Str) :
    (∀ bs, execute_tools g bs =
      (toolUseTriples bs).map (fun t => ⟨t.1, g t.2.1 t.2.2⟩)) ∧
    (∀ (oracle : List Message → ModelResponse) fuel (mem : ConversationMemory) calls,
      (oracle mem.messages).stopReason = .toolUse →
      runSteps oracle g (fuel + 1) mem calls =
        runSteps oracle g fuel
          (add_tool_results (add_assistant_message mem (oracle mem.messages).content)
            (execute_tools g (oracle mem.messages).content)) (calls + 1)) := by
  constructor
  · intro bs
    induction bs with
    | nil => rfl
    | cons b rest ih =>
      cases b with
      | text s =>
        show execute_tools g (Block.text s :: rest) = _
        rw [show execute_tools g (Block.text s :: rest) = execute_tools g rest from rfl]
        rw [show toolUseTriples (Block.text s :: rest) = toolUseTriples rest from by
          simp [toolUseTriples, List.filterMap_cons]]
        exact ih
      | toolUse id name input =>
        rw [show execute_tools g (Block.toolUse id name input :: rest) =
          ⟨id, g name input⟩ :: execute_tools g rest from rfl]
        rw [show toolUseTriples (Block.toolUse id name input :: rest) =
          (id, name, input) :: toolUseTriples rest from by
          simp [toolUseTriples, List.filterMap_cons]]
        rw [List.map_cons, ih]
  · intro oracle fuel mem calls h
    rw [show runSteps oracle g (fuel + 1) mem calls =
      (match (oracle mem.messages).stopReason with
       | .endTurn =>
         ⟨if (extract_text (oracle mem.messages).content).isEmpty then FALLBACK_MESSAGE
           else extract_text (oracle mem.messages).content,
          add_assistant_message mem (oracle mem.messages).content, calls + 1⟩
       | .toolUse =>
         runSteps oracle g fuel
           (add_tool_results (add_assistant_message mem (oracle mem.messages).content)
             (execute_tools g (oracle mem.messages).content)) (calls + 1)
       | .otherReason _ => ⟨FALLBACK_MESSAGE, mem, calls + 1⟩) from rfl]
    rw [h]

/-- A backend that requests an action on every step and never answers. -/
def toolOracle : List Message → ModelResponse :=
  fun _ => ⟨.toolUse, [Block.toolUse "id1".data "web_search".data ⟨some "x".data, none, none⟩]⟩

theorem execute_tools_echoes_witness :
    runSteps toolOracle constTool 1 emptyMemory 0 =
      runSteps toolOracle constTool 0
        (add_tool_results (add_assistant_message emptyMemory (toolOracle emptyMemory.messages).content)
          (execute_tools constTool (toolOracle emptyMemory.messages).content)) 1 :=
  (execute_tools_echoes constTool).2 toolOracle 0 emptyMemory 0 rfl

/-- Exhaustion lemma: if the backend always requests tools, `runSteps`
spends all its fuel, issuing one model call per step, and falls back. -/
theorem runSteps_exhausts (oracle : List Message → ModelResponse)
    (g : Str → ToolInput → Str)
    (h : ∀ msgs, (oracle msgs).stopReason = .toolUse) :
    ∀ fuel (mem : ConversationMemory) calls,
      (runSteps oracle g fuel mem calls).answer = FALLBACK_MESSAGE ∧
      (runSteps oracle g fuel mem calls).modelCalls = calls + fuel := by
  intro fuel
  induction fuel with
  | zero => intro mem calls; exact ⟨rfl, rfl⟩
  | succ fuel ih =>
    intro mem calls
    rw [show runSteps oracle g (fuel + 1) mem calls =
      (match (oracle mem.messages).stopReason with
       | .endTurn =>
         ⟨if (extract_text (oracle mem.messages).content).isEmpty then FALLBACK_MESSAGE
           else extract_text (oracle mem.messages).content,
          add_assistant_message mem (oracle mem.messages).content, calls + 1⟩
       | .toolUse =>
         runSteps oracle g fuel
           (add_tool_results (add_assistant_message mem (oracle mem.messages).content)
             (execute_tools g (oracle mem.messages).content)) (calls + 1)
       | .otherReason _ => ⟨FALLBACK_MESSAGE, mem, calls + 1⟩) from rfl]
    rw [h mem.messages]
    obtain ⟨ha, hc⟩ := ih (add_tool_results (add_assistant_message mem
      (oracle mem.messages).content) (execute_tools g (oracle mem.messages).content))
      (calls + 1)
    refine ⟨ha, ?_⟩
    rw [hc]
    omega

/-- **C7.** If the model backend requests actions on every step and never
signals completion, `run` issues exactly `MAX_ITERATIONS = 10` model calls
and returns the fixed fallback message. -/
theorem run_exhausts_after_max (oracle : List Message → ModelResponse)
    (g : Str → ToolInput → Str) (mem : ConversationMemory) (question : Str)
    (h : ∀ msgs, (oracle msgs).stopReason = .toolUse) :
    (run oracle g mem question).answer = FALLBACK_MESSAGE ∧
    (run oracle g mem question).modelCalls = 10 ∧ MAX_ITERATIONS = 10 := by
  obtain ⟨ha, hc⟩ := runSteps_exhausts oracle g h MAX_ITERATIONS
    (add_user_message mem question) 0
  exact ⟨ha, hc, rfl⟩

theorem run_exhausts_after_max_witness :
    (run toolOracle constTool emptyMemory "q".data).answer = FALLBACK_MESSAGE ∧
    (run toolOracle constTool emptyMemory "q".data).modelCalls = 10 ∧
    MAX_ITERATIONS = 10 :=
  run_exhausts_after_max toolOracle constTool emptyMemory "q".data (fun _ => rfl)

end ResearchAgent
